import Mathlib

/-!
Verification of the blink-db key-value cache against its specification.

The definitions below are shallow embeddings of the C++ sources:
* `LRUCache` and its operations embed `src/lib/lru_cache.h`;
* `TrieNode` embeds `src/lib/tire.h`; the counting filter embeds
  `src/lib/bloomfilter.h`; `PKV` and its operations embed
  `src/lib/persistence_kv_store.h` (and, for the rewrite pass, also the
  `src/part-b/lib/persistence_kv_store.h` variant);
* `handleCommand` embeds `Server::handle_command` of `src/lib/server.h`;
* `parseResp` / `parseKeyQ` embed the RESP parsing of `Server::parse_resp`
  and of `parse_key` in `src/src/blink_server_with_lb.cpp`;
* `ringChoose` / `lbGetServer` embed `LoadBalancer` of
  `src/lib/load_balancer.h`.

C++ `size_t` arithmetic is modelled as `Nat` arithmetic modulo `2 ^ 64`
(`add64` / `sub64`); `std::string::size()` is the UTF-8 byte size.
`std::chrono::steady_clock::now()` is modelled by an externally supplied
logical timestamp that strictly increases from one operation to the next.
-/

set_option maxRecDepth 100000

/-- Modulus of `size_t` arithmetic (64-bit). -/
def W64 : Nat := 2 ^ 64

/-- `size_t` addition: wraps modulo `2 ^ 64`. -/
def add64 (a b : Nat) : Nat := (a + b) % W64

/-- `size_t` subtraction: wraps modulo `2 ^ 64`. -/
def sub64 (a b : Nat) : Nat := (a + W64 - b % W64) % W64

/-- `std::string::size()`: number of bytes of the UTF-8 encoding. -/
def strSize (s : String) : Nat := s.utf8ByteSize

/-- One node of `LRUCache::cache_list` (`struct CacheEntry` of
`src/lib/lru_cache.h`): key, value, and the `last_accessed` timestamp
(logical time standing for `steady_clock::now()`). -/
structure CacheEntry where
  key : String
  value : String
  last_accessed : Nat
deriving Repr, DecidableEq

/-- `key.size() + value.size()` of an entry, summed in `size_t`; this is the
amount the source subtracts on replacement, eviction and deletion. -/
def kvSize (e : CacheEntry) : Nat := add64 (strSize e.key) (strSize e.value)

/-- State of `class LRUCache` (`src/lib/lru_cache.h`): the recency list
(most-recently used at the front; `cache_map` is the list keyed by entry key)
together with `current_memory_usage` and `max_memory_bytes`. -/
structure LRUCache where
  cache_list : List CacheEntry
  current_memory_usage : Nat
  max_memory_bytes : Nat
deriving Repr, DecidableEq

/-- `LRUCache(max_mem)`: empty list, zero usage. -/
def LRUCache.init (max_mem : Nat) : LRUCache :=
  { cache_list := [], current_memory_usage := 0, max_memory_bytes := max_mem }

/-- The eviction loop of `LRUCache::set`:
`while (current_memory_usage + entry_size > max_memory_bytes && !cache_list.empty())`
pop the back of the list and subtract `last.key.size() + last.value.size()`.
The fuel argument is instantiated with the list length, which bounds the
number of iterations (each one removes one element). -/
def evictLoopAux (entry_size max_bytes : Nat) :
    Nat → List CacheEntry → Nat → List CacheEntry × Nat
  | 0, l, cur => (l, cur)
  | fuel + 1, l, cur =>
    if max_bytes < add64 cur entry_size then
      match l.getLast? with
      | some last =>
          evictLoopAux entry_size max_bytes fuel l.dropLast (sub64 cur (kvSize last))
      | none => (l, cur)
    else (l, cur)

/-- `LRUCache::set(key, value)`. `ov` is the compile-time constant
`sizeof(CacheEntry)` and `now` the current `steady_clock` reading.  Returns
the new state and `true` when the entry was stored; `false` models the
`"Warning: Entry too large to fit in cache"` early return. -/
def LRUCache.set (ov : Nat) (st : LRUCache) (now : Nat) (key value : String) :
    LRUCache × Bool :=
  let entry_size := add64 (add64 (strSize key) (strSize value)) ov
  let (l0, cur0) :=
    match st.cache_list.find? (fun e => e.key == key) with
    | some e =>
        (st.cache_list.eraseP (fun e2 : CacheEntry => e2.key == key),
         sub64 st.current_memory_usage (kvSize e))
    | none => (st.cache_list, st.current_memory_usage)
  let (l1, cur1) := evictLoopAux entry_size st.max_memory_bytes l0.length l0 cur0
  if st.max_memory_bytes < add64 cur1 entry_size then
    ({ st with cache_list := l1, current_memory_usage := cur1 }, false)
  else
    ({ st with
        cache_list := ⟨key, value, now⟩ :: l1,
        current_memory_usage := add64 cur1 entry_size }, true)

/-- `LRUCache::get(key, value)`: on a hit, refresh `last_accessed` and splice
the entry to the front of the list; return the stored value. -/
def LRUCache.get (st : LRUCache) (now : Nat) (key : String) :
    LRUCache × Option String :=
  match st.cache_list.find? (fun e => e.key == key) with
  | none => (st, none)
  | some e =>
    ({ st with
        cache_list :=
          { e with last_accessed := now } ::
            st.cache_list.eraseP (fun e2 : CacheEntry => e2.key == key) },
     some e.value)

/-- `LRUCache::del(key)`: subtract `key.size() + value.size()` and unlink. -/
def LRUCache.del (st : LRUCache) (key : String) : LRUCache × Bool :=
  match st.cache_list.find? (fun e => e.key == key) with
  | none => (st, false)
  | some e =>
    ({ st with
        cache_list := st.cache_list.eraseP (fun e2 : CacheEntry => e2.key == key),
        current_memory_usage := sub64 st.current_memory_usage (kvSize e) },
     true)

/-- `LRUCache::memory_usage()`. -/
def LRUCache.memory_usage (st : LRUCache) : Nat := st.current_memory_usage

/-- `LRUCache::max_memory()`. -/
def LRUCache.max_memory (st : LRUCache) : Nat := st.max_memory_bytes

/-- `LRUCache::size()` (`cache_map.size()`, which the source keeps in sync
with the list). -/
def LRUCache.size (st : LRUCache) : Nat := st.cache_list.length

/-- Sum of spec-side accounted sizes `len(key) + len(value) + c` over the
entries of a list, for a fixed per-entry overhead constant `c`
(spec §3/§8: `sum(accounted_size(e) for e in LRU)`). -/
def accountedSum (c : Nat) (l : List CacheEntry) : Nat :=
  match l with
  | [] => 0
  | e :: es => strSize e.key + strSize e.value + c + accountedSum c es

example :
    (LRUCache.set 72 (LRUCache.init 1000) 0 "a" "b").2 = true := by decide

example :
    ((LRUCache.set 72 (LRUCache.init 1000) 0 "a" "b").1.current_memory_usage)
      = 74 := by decide

example :
    ((LRUCache.del (LRUCache.set 72 (LRUCache.init 1000) 0 "a" "b").1
        "a").1.current_memory_usage) = 72 := by decide

/-- Plain byte sum `len(key) + len(value)` over a list of entries. -/
def listKVSum : List CacheEntry → Nat
  | [] => 0
  | e :: es => strSize e.key + strSize e.value + listKVSum es

theorem add64_eq_of_lt {a b : Nat} (h : a + b < W64) : add64 a b = a + b :=
  Nat.mod_eq_of_lt h

theorem sub64_eq_of_le {a b : Nat} (hba : b ≤ a) (ha : a < W64) :
    sub64 a b = a - b := by
  unfold sub64
  rw [Nat.mod_eq_of_lt (lt_of_le_of_lt hba ha)]
  have h1 : a + W64 - b = W64 + (a - b) := by omega
  rw [h1, Nat.add_mod_left, Nat.mod_eq_of_lt (by omega)]

theorem kv_le_listKVSum {e : CacheEntry} {l : List CacheEntry} (h : e ∈ l) :
    strSize e.key + strSize e.value ≤ listKVSum l := by
  induction l with
  | nil => cases h
  | cons a as ih =>
    rcases List.mem_cons.mp h with h1 | h1
    · subst h1; simp [listKVSum]
    · have := ih h1; simp [listKVSum]; omega

theorem listKVSum_eraseP {p : CacheEntry → Bool} {l : List CacheEntry}
    {e : CacheEntry} (h : l.find? p = some e) :
    listKVSum l = strSize e.key + strSize e.value + listKVSum (l.eraseP p) := by
  induction l with
  | nil => simp at h
  | cons a as ih =>
    by_cases hp : p a
    · rw [List.find?_cons_of_pos _ hp] at h
      cases h
      rw [List.eraseP_cons_of_pos hp]
      simp [listKVSum]
    · rw [List.find?_cons_of_neg _ hp] at h
      rw [List.eraseP_cons_of_neg hp]
      simp only [listKVSum]
      have := ih h
      omega

theorem listKVSum_getLast {l : List CacheEntry} {e : CacheEntry}
    (h : l.getLast? = some e) :
    listKVSum l = listKVSum l.dropLast + (strSize e.key + strSize e.value) := by
  induction l with
  | nil => simp at h
  | cons a as ih =>
    cases as with
    | nil =>
      simp [List.getLast?] at h
      subst h
      simp [listKVSum, List.dropLast]
    | cons b bs =>
      rw [List.getLast?_cons_cons] at h
      have := ih h
      simp only [listKVSum, List.dropLast_cons₂]
      simp only [listKVSum] at this ⊢
      omega

/-- When the incoming entry alone exceeds `max_bytes`, the eviction loop of
`LRUCache::set` runs until the list is empty, subtracting each victim's
key+value bytes. -/
theorem evictLoopAux_oversized (es mx : Nat)
    (hbig : mx < es) :
    ∀ (fuel : Nat) (l : List CacheEntry) (cur : Nat),
      listKVSum l ≤ cur → cur + es < W64 → l.length ≤ fuel →
      evictLoopAux es mx fuel l cur = ([], cur - listKVSum l) := by
  intro fuel
  induction fuel with
  | zero =>
    intro l cur hsum hlt hlen
    have : l = [] := List.length_eq_zero.mp (Nat.le_zero.mp hlen)
    subst this
    simp [evictLoopAux, listKVSum]
  | succ n ih =>
    intro l cur hsum hlt hlen
    have hcond : mx < add64 cur es := by
      rw [add64_eq_of_lt hlt]; omega
    cases hl : l.getLast? with
    | none =>
      have : l = [] := List.getLast?_eq_none_iff.mp hl
      subst this
      simp [evictLoopAux, hcond, listKVSum]
    | some last =>
      have hmem : last ∈ l := List.mem_of_getLast?_eq_some hl
      have hkv : strSize last.key + strSize last.value ≤ listKVSum l :=
        kv_le_listKVSum hmem
      have hkvlt : strSize last.key + strSize last.value < W64 := by omega
      have hkv64 : kvSize last = strSize last.key + strSize last.value := by
        unfold kvSize; exact add64_eq_of_lt hkvlt
      have hsumlast := listKVSum_getLast hl
      have hsub : sub64 cur (kvSize last) =
          cur - (strSize last.key + strSize last.value) := by
        rw [hkv64]
        exact sub64_eq_of_le (le_trans hkv hsum) (by omega)
      have hlen2 : l.dropLast.length ≤ n := by
        have : l ≠ [] := by intro he; subst he; simp at hl
        have : 0 < l.length := List.length_pos.mpr this
        simp [List.length_dropLast]; omega
      have := ih l.dropLast (cur - (strSize last.key + strSize last.value))
        (by omega) (by omega) hlen2
      simp only [evictLoopAux, if_pos hcond, hl, hsub, this]
      congr 1
      omega

/-- C6: after any successful SET, `current_memory_usage ≤ max_memory_bytes`.
The guard `current_memory_usage + entry_size > max_memory_bytes` that rejects
the entry is exactly the negation of the claimed bound for the value stored
on success, for every state, key, value, overhead constant and timestamp. -/
theorem c6_capacity_after_set (ov : Nat) (st : LRUCache) (now : Nat)
    (k v : String)
    (h : (LRUCache.set ov st now k v).2 = true) :
    (LRUCache.set ov st now k v).1.current_memory_usage ≤
      (LRUCache.set ov st now k v).1.max_memory_bytes := by
  unfold LRUCache.set at h ⊢
  cases hfind : st.cache_list.find? (fun e => e.key == k) with
  | none =>
    simp only [hfind] at h ⊢
    generalize hq : evictLoopAux (add64 (add64 (strSize k) (strSize v)) ov)
      st.max_memory_bytes st.cache_list.length st.cache_list
      st.current_memory_usage = q at h ⊢
    obtain ⟨l1, cur1⟩ := q
    by_cases hc : st.max_memory_bytes <
        add64 cur1 (add64 (add64 (strSize k) (strSize v)) ov)
    · simp only [if_pos hc] at h
      simp at h
    · simp only [if_neg hc] at h ⊢
      exact le_of_not_lt hc
  | some e =>
    simp only [hfind] at h ⊢
    generalize hq : evictLoopAux (add64 (add64 (strSize k) (strSize v)) ov)
      st.max_memory_bytes
      (List.eraseP (fun e2 => e2.key == k) st.cache_list).length
      (List.eraseP (fun e2 => e2.key == k) st.cache_list)
      (sub64 st.current_memory_usage (kvSize e)) = q at h ⊢
    obtain ⟨l1, cur1⟩ := q
    by_cases hc : st.max_memory_bytes <
        add64 cur1 (add64 (add64 (strSize k) (strSize v)) ov)
    · simp only [if_pos hc] at h
      simp at h
    · simp only [if_neg hc] at h ⊢
      exact le_of_not_lt hc

/-- Witness for `c6_capacity_after_set` at a concrete successful SET. -/
theorem c6_capacity_after_set_witness :
    (LRUCache.set 72 (LRUCache.init 1000) 0 "a" "b").2 = true ∧
      (LRUCache.set 72 (LRUCache.init 1000) 0 "a" "b").1.current_memory_usage ≤
        (LRUCache.set 72 (LRUCache.init 1000) 0 "a" "b").1.max_memory_bytes :=
  ⟨by decide, c6_capacity_after_set 72 (LRUCache.init 1000) 0 "a" "b" (by decide)⟩

/-- C1 (code bug): `LRUCache::set` adds
`key.size() + value.size() + sizeof(CacheEntry)` to `current_memory_usage`,
but `del` (like eviction and replacement) subtracts only
`key.size() + value.size()`.  Hence after `set("a","b"); del("a")` on an
empty cache, `current_memory_usage` is `sizeof(CacheEntry) ≠ 0`, while the
map is empty, so no fixed per-entry constant `c` can make
`current_memory_usage = accountedSum c entries` hold after every operation.
`ov` ranges over every possible value of `sizeof(CacheEntry)` (which is
positive and far below `2 ^ 32` for any real compiler). -/
theorem c1_accounting_mismatch (ov c : Nat) (hov : 0 < ov)
    (hov2 : ov < 2 ^ 32) :
    ((LRUCache.del (LRUCache.set ov (LRUCache.init (2 ^ 40)) 0 "a" "b").1
        "a").1.current_memory_usage) ≠
      accountedSum c
        ((LRUCache.del (LRUCache.set ov (LRUCache.init (2 ^ 40)) 0 "a" "b").1
            "a").1.cache_list) := by
  have h1 : strSize "a" = 1 := by decide
  have h2 : strSize "b" = 1 := by decide
  have hes : add64 (add64 (strSize "a") (strSize "b")) ov = 2 + ov := by
    rw [h1, h2]
    unfold add64 W64
    norm_num
    omega
  have hset : LRUCache.set ov (LRUCache.init (2 ^ 40)) 0 "a" "b" =
      ({ cache_list := [⟨"a", "b", 0⟩],
         current_memory_usage := 2 + ov,
         max_memory_bytes := 2 ^ 40 }, true) := by
    unfold LRUCache.set LRUCache.init
    simp only [List.find?_nil, List.length_nil, evictLoopAux, hes]
    rw [if_neg (by unfold add64 W64; omega)]
    simp only [Prod.mk.injEq, LRUCache.mk.injEq, and_true, true_and]
    unfold add64 W64
    omega
  rw [hset]
  have hfind : List.find? (fun e : CacheEntry => e.key == "a")
      [⟨"a", "b", 0⟩] = some ⟨"a", "b", 0⟩ := by decide
  have herase : List.eraseP (fun e : CacheEntry => e.key == "a")
      [⟨"a", "b", 0⟩] = [] := by decide
  have hkv : kvSize ⟨"a", "b", 0⟩ = 2 := by decide
  unfold LRUCache.del
  simp only [hfind, herase, hkv]
  have hsub : sub64 (2 + ov) 2 = ov := by
    rw [sub64_eq_of_le (by omega) (by unfold W64; omega)]
    omega
  simp only [hsub, accountedSum]
  omega

/-- Witness for `c1_accounting_mismatch` at `sizeof(CacheEntry) = 72`
(a typical value for two `std::string`s plus a `time_point` on x86-64)
and the matching candidate constant `c = 72`. -/
theorem c1_accounting_mismatch_witness :
    0 < 72 ∧ 72 < 2 ^ 32 ∧
      ((LRUCache.del (LRUCache.set 72 (LRUCache.init (2 ^ 40)) 0 "a" "b").1
          "a").1.current_memory_usage) ≠
        accountedSum 72
          ((LRUCache.del (LRUCache.set 72 (LRUCache.init (2 ^ 40)) 0 "a" "b").1
              "a").1.cache_list) :=
  ⟨by decide, by norm_num,
   c1_accounting_mismatch 72 72 (by decide) (by norm_num)⟩

/-- A 128-byte value used to build an oversized entry. -/
def bigVal : String := String.mk (List.replicate 128 'z')

/-- A cache with `max_memory_bytes = 200` holding `"a" ↦ "x"` and
`"b" ↦ "y"` (with `sizeof(CacheEntry) = 72`). -/
def c2state : LRUCache :=
  (LRUCache.set 72 (LRUCache.set 72 (LRUCache.init 200) 0 "a" "x").1
    1 "b" "y").1

/-- C2 counterexample: a SET whose entry size (1 + 128 + 72 = 201) exceeds
`max_bytes = 200` is rejected, but the map state is NOT unchanged: the
eviction loop first evicts every resident entry, so both `"a"` and `"b"`
are gone after the rejected SET.  This falsifies the claim that a rejected
oversized SET leaves the map untouched and evicts nothing. -/
theorem c2_oversized_counterexample :
    (LRUCache.set 72 c2state 2 "c" bigVal).2 = false ∧
      (LRUCache.set 72 c2state 2 "c" bigVal).1.cache_list = [] ∧
      c2state.cache_list =
        [⟨"b", "y", 1⟩, ⟨"a", "x", 0⟩] := by
  decide

/-- C2 amended: an oversized SET (accounted size `> max_bytes`) is rejected
with the too-large signal and nothing is inserted, but before rejecting,
the code erases the key's previous entry (if any) and evicts every entry of
the list, leaving the map empty.  The two side conditions say that
`current_memory_usage` is at least the bytes accounted to the resident
entries (true in every reachable state, where the leak of
`c1_accounting_mismatch` only makes it larger) and that no `size_t`
overflow occurs. -/
theorem c2_oversized_set_amended (ov : Nat) (st : LRUCache) (now : Nat)
    (k v : String)
    (hwf : listKVSum st.cache_list ≤ st.current_memory_usage)
    (hsm : st.current_memory_usage + (strSize k + strSize v + ov) < W64)
    (hbig : st.max_memory_bytes < strSize k + strSize v + ov) :
    (LRUCache.set ov st now k v).2 = false ∧
      (LRUCache.set ov st now k v).1.cache_list = [] := by
  have hin : add64 (strSize k) (strSize v) = strSize k + strSize v :=
    add64_eq_of_lt (by omega)
  have hes : add64 (add64 (strSize k) (strSize v)) ov =
      strSize k + strSize v + ov := by
    rw [hin]
    exact add64_eq_of_lt (by omega)
  unfold LRUCache.set
  cases hfind : st.cache_list.find? (fun e => e.key == k) with
  | none =>
    simp only [hfind, hes]
    rw [evictLoopAux_oversized _ _ hbig st.cache_list.length st.cache_list
      st.current_memory_usage hwf (by omega) (le_refl _)]
    rw [if_pos (by rw [add64_eq_of_lt (by omega)]; omega)]
    exact ⟨rfl, rfl⟩
  | some e =>
    have hmem : e ∈ st.cache_list := List.mem_of_find?_eq_some hfind
    have hkvle : strSize e.key + strSize e.value ≤ listKVSum st.cache_list :=
      kv_le_listKVSum hmem
    have hkv64 : kvSize e = strSize e.key + strSize e.value :=
      add64_eq_of_lt (by omega)
    have hsub : sub64 st.current_memory_usage (kvSize e) =
        st.current_memory_usage - (strSize e.key + strSize e.value) := by
      rw [hkv64]
      exact sub64_eq_of_le (le_trans hkvle hwf) (by omega)
    have hsum2 : listKVSum (st.cache_list.eraseP (fun e2 : CacheEntry => e2.key == k)) ≤
        st.current_memory_usage - (strSize e.key + strSize e.value) := by
      have := listKVSum_eraseP hfind
      omega
    simp only [hfind, hes, hsub]
    rw [evictLoopAux_oversized _ _ hbig _ _ _ hsum2 (by omega) (le_refl _)]
    rw [if_pos (by rw [add64_eq_of_lt (by omega)]; omega)]
    exact ⟨rfl, rfl⟩

/-- Witness for `c2_oversized_set_amended` on the concrete `c2state`. -/
theorem c2_oversized_set_amended_witness :
    (LRUCache.set 72 c2state 2 "c" bigVal).2 = false ∧
      (LRUCache.set 72 c2state 2 "c" bigVal).1.cache_list = [] :=
  c2_oversized_set_amended 72 c2state 2 "c" bigVal (by decide) (by decide)
    (by decide)

/-- One client operation on the LRU cache. -/
inductive LOp where
  | setOp (k v : String)
  | getOp (k : String)
  | delOp (k : String)
deriving Repr, DecidableEq

/-- Execute one operation at logical time `t` (each call of the source reads
`steady_clock::now()`; successive operations get strictly larger stamps). -/
def stepAt (ov : Nat) (st : LRUCache) (t : Nat) : LOp → LRUCache
  | .setOp k v => (LRUCache.set ov st t k v).1
  | .getOp k => (LRUCache.get st t k).1
  | .delOp k => (LRUCache.del st k).1

/-- Run a sequence of operations, one per clock tick. -/
def runFrom (ov : Nat) : LRUCache → Nat → List LOp → LRUCache
  | st, _, [] => st
  | st, t, op :: ops => runFrom ov (stepAt ov st t op) (t + 1) ops

/-- Every stamp in the list is below `t`. -/
def StampsBelow (l : List CacheEntry) (t : Nat) : Prop :=
  ∀ e ∈ l, e.last_accessed < t

/-- The list is ordered by strictly decreasing `last_accessed` (MRU first):
any entry closer to the front was touched later. -/
def RecencySorted (l : List CacheEntry) : Prop :=
  l.Pairwise (fun a b => b.last_accessed < a.last_accessed)

theorem evictLoopAux_sublist (es mx : Nat) :
    ∀ (fuel : Nat) (l : List CacheEntry) (cur : Nat),
      List.Sublist (evictLoopAux es mx fuel l cur).1 l := by
  intro fuel
  induction fuel with
  | zero => intro l cur; exact List.Sublist.refl l
  | succ n ih =>
    intro l cur
    unfold evictLoopAux
    split
    · cases hl : l.getLast? with
      | none => exact List.Sublist.refl l
      | some last =>
        exact List.Sublist.trans (ih l.dropLast _) (List.dropLast_sublist l)
    · exact List.Sublist.refl l

/-- The list produced by `LRUCache::set` is either a sublist of the input
list (rejection) or a new MRU entry stamped `now` consed onto a sublist. -/
theorem set_cache_list_shape (ov : Nat) (st : LRUCache) (now : Nat)
    (k v : String) :
    ∃ l1, List.Sublist l1 st.cache_list ∧
      ((LRUCache.set ov st now k v).1.cache_list = l1 ∨
        (LRUCache.set ov st now k v).1.cache_list =
          ⟨k, v, now⟩ :: l1) := by
  unfold LRUCache.set
  cases hfind : st.cache_list.find? (fun e => e.key == k) with
  | none =>
    simp only [hfind]
    have hs := evictLoopAux_sublist (add64 (add64 (strSize k) (strSize v)) ov)
      st.max_memory_bytes st.cache_list.length st.cache_list
      st.current_memory_usage
    generalize hq : evictLoopAux (add64 (add64 (strSize k) (strSize v)) ov)
      st.max_memory_bytes st.cache_list.length st.cache_list
      st.current_memory_usage = q at hs ⊢
    obtain ⟨l1, cur1⟩ := q
    simp only at hs
    by_cases hc : st.max_memory_bytes <
        add64 cur1 (add64 (add64 (strSize k) (strSize v)) ov)
    · exact ⟨l1, hs, Or.inl (by simp only [if_pos hc])⟩
    · exact ⟨l1, hs, Or.inr (by simp only [if_neg hc])⟩
  | some e =>
    simp only [hfind]
    have hs := evictLoopAux_sublist (add64 (add64 (strSize k) (strSize v)) ov)
      st.max_memory_bytes
      (st.cache_list.eraseP (fun e2 : CacheEntry => e2.key == k)).length
      (st.cache_list.eraseP (fun e2 : CacheEntry => e2.key == k))
      (sub64 st.current_memory_usage (kvSize e))
    have hs2 := List.Sublist.trans hs (List.eraseP_sublist st.cache_list)
    generalize hq : evictLoopAux (add64 (add64 (strSize k) (strSize v)) ov)
      st.max_memory_bytes
      (st.cache_list.eraseP (fun e2 : CacheEntry => e2.key == k)).length
      (st.cache_list.eraseP (fun e2 : CacheEntry => e2.key == k))
      (sub64 st.current_memory_usage (kvSize e)) = q at hs2 ⊢
    obtain ⟨l1, cur1⟩ := q
    simp only at hs2
    by_cases hc : st.max_memory_bytes <
        add64 cur1 (add64 (add64 (strSize k) (strSize v)) ov)
    · exact ⟨l1, hs2, Or.inl (by simp only [if_pos hc])⟩
    · exact ⟨l1, hs2, Or.inr (by simp only [if_neg hc])⟩

/-- The list produced by `LRUCache::del` is a sublist of the input list. -/
theorem del_cache_list_shape (st : LRUCache) (k : String) :
    List.Sublist (LRUCache.del st k).1.cache_list st.cache_list := by
  unfold LRUCache.del
  cases hfind : st.cache_list.find? (fun e => e.key == k) with
  | none => exact List.Sublist.refl _
  | some e =>
    simp only [hfind]
    exact List.eraseP_sublist st.cache_list

/-- `LRUCache::get` either misses and leaves the state unchanged, or hits
and produces the found entry, restamped, at the front of the list. -/
theorem get_characterization (st : LRUCache) (now : Nat) (k : String) :
    (LRUCache.get st now k = (st, none) ∧
      st.cache_list.find? (fun e : CacheEntry => e.key == k) = none) ∨
    ∃ e, st.cache_list.find? (fun e2 : CacheEntry => e2.key == k) = some e ∧
      LRUCache.get st now k =
        ({ st with
            cache_list :=
              { e with last_accessed := now } ::
                st.cache_list.eraseP (fun e2 : CacheEntry => e2.key == k) },
         some e.value) := by
  unfold LRUCache.get
  cases hfind : st.cache_list.find? (fun e => e.key == k) with
  | none => exact Or.inl ⟨rfl, rfl⟩
  | some e => exact Or.inr ⟨e, rfl, rfl⟩

theorem stepAt_preserves (ov t : Nat) (st : LRUCache)
    (h1 : RecencySorted st.cache_list) (h2 : StampsBelow st.cache_list t)
    (op : LOp) :
    RecencySorted (stepAt ov st t op).cache_list ∧
      StampsBelow (stepAt ov st t op).cache_list (t + 1) := by
  cases op with
  | setOp k v =>
    obtain ⟨l1, hsub, hcase⟩ := set_cache_list_shape ov st t k v
    have hsort1 : RecencySorted l1 := List.Pairwise.sublist hsub h1
    have hbelow1 : StampsBelow l1 t := fun e he => h2 e (hsub.subset he)
    rcases hcase with hc | hc
    · refine ⟨?_, ?_⟩
      · show RecencySorted (LRUCache.set ov st t k v).1.cache_list
        rw [hc]; exact hsort1
      · show StampsBelow (LRUCache.set ov st t k v).1.cache_list (t + 1)
        rw [hc]; exact fun e he => Nat.lt_succ_of_lt (hbelow1 e he)
    · refine ⟨?_, ?_⟩
      · show RecencySorted (LRUCache.set ov st t k v).1.cache_list
        rw [hc]
        exact List.pairwise_cons.mpr ⟨fun b hb => hbelow1 b hb, hsort1⟩
      · show StampsBelow (LRUCache.set ov st t k v).1.cache_list (t + 1)
        rw [hc]
        intro e he
        rcases List.mem_cons.mp he with he1 | he1
        · subst he1; exact Nat.lt_succ_self t
        · exact Nat.lt_succ_of_lt (hbelow1 e he1)
  | getOp k =>
    rcases get_characterization st t k with ⟨hmiss, _⟩ | ⟨e, hfind, hhit⟩
    · show RecencySorted (LRUCache.get st t k).1.cache_list ∧
        StampsBelow (LRUCache.get st t k).1.cache_list (t + 1)
      rw [hmiss]
      exact ⟨h1, fun e he => Nat.lt_succ_of_lt (h2 e he)⟩
    · show RecencySorted (LRUCache.get st t k).1.cache_list ∧
        StampsBelow (LRUCache.get st t k).1.cache_list (t + 1)
      rw [hhit]
      have hsub := List.eraseP_sublist
        (p := fun e2 : CacheEntry => e2.key == k) st.cache_list
      have hsort1 : RecencySorted
          (st.cache_list.eraseP (fun e2 : CacheEntry => e2.key == k)) :=
        List.Pairwise.sublist hsub h1
      have hbelow1 : StampsBelow
          (st.cache_list.eraseP (fun e2 : CacheEntry => e2.key == k)) t :=
        fun e2 he => h2 e2 (hsub.subset he)
      constructor
      · exact List.pairwise_cons.mpr ⟨fun b hb => hbelow1 b hb, hsort1⟩
      · intro e2 he
        rcases List.mem_cons.mp he with he1 | he1
        · subst he1; exact Nat.lt_succ_self t
        · exact Nat.lt_succ_of_lt (hbelow1 e2 he1)
  | delOp k =>
    have hsub := del_cache_list_shape st k
    exact ⟨List.Pairwise.sublist hsub h1,
      fun e he => Nat.lt_succ_of_lt (h2 e (hsub.subset he))⟩

theorem runFrom_preserves (ov : Nat) :
    ∀ (ops : List LOp) (st : LRUCache) (t : Nat),
      RecencySorted st.cache_list → StampsBelow st.cache_list t →
      RecencySorted (runFrom ov st t ops).cache_list ∧
        StampsBelow (runFrom ov st t ops).cache_list (t + ops.length) := by
  intro ops
  induction ops with
  | nil => intro st t h1 h2; exact ⟨h1, by simpa using h2⟩
  | cons op rest ih =>
    intro st t h1 h2
    have hstep := stepAt_preserves ov t st h1 h2 op
    have := ih (stepAt ov st t op) (t + 1) hstep.1 hstep.2
    simpa [runFrom, Nat.add_comm, Nat.add_assoc, Nat.add_left_comm] using this

/-- In a list sorted by strictly decreasing stamps, the last element (the
LRU end, which the eviction loop pops) has the minimal stamp. -/
theorem getLast_min_of_recencySorted :
    ∀ (l : List CacheEntry) (h : l ≠ []), RecencySorted l →
      ∀ e ∈ l, (l.getLast h).last_accessed ≤ e.last_accessed := by
  intro l
  induction l with
  | nil => intro h; cases h rfl
  | cons a as ih =>
    intro h hsort e he
    cases as with
    | nil =>
      rcases List.mem_cons.mp he with he1 | he1
      · subst he1; exact Nat.le_refl _
      · cases he1
    | cons b bs =>
      have hne : (b :: bs) ≠ [] := by simp
      rw [List.getLast_cons hne]
      have hsort2 := List.pairwise_cons.mp hsort
      rcases List.mem_cons.mp he with he1 | he1
      · subst he1
        have hlm : (List.getLast (b :: bs) hne) ∈ b :: bs :=
          List.getLast_mem hne
        exact Nat.le_of_lt (hsort2.1 _ hlm)
      · exact ih hne hsort2.2 e he1

/-- C5: in every reachable state of the LRU cache (any operation sequence
run from an empty cache with one clock tick per operation), (a) a GET hit
leaves the entry for the requested key at the MRU position (head of
`cache_list`) with its stored value, and (b) the entry at the LRU end (the
list's last element, which the eviction loop of `set` pops) has the oldest
`last_accessed` stamp of all resident entries. -/
theorem c5_lru_recency (ov m : Nat) (ops : List LOp) :
    (∀ (t : Nat) (k : String) (st2 : LRUCache) (v : String),
        LRUCache.get (runFrom ov (LRUCache.init m) 0 ops) t k =
          (st2, some v) →
        ∃ e, st2.cache_list.head? = some e ∧ e.key = k ∧ e.value = v) ∧
    (∀ h : (runFrom ov (LRUCache.init m) 0 ops).cache_list ≠ [],
      ∀ e ∈ (runFrom ov (LRUCache.init m) 0 ops).cache_list,
        ((runFrom ov (LRUCache.init m) 0 ops).cache_list.getLast
            h).last_accessed ≤ e.last_accessed) := by
  constructor
  · intro t k st2 v hget
    rcases get_characterization (runFrom ov (LRUCache.init m) 0 ops) t k with
      ⟨hmiss, _⟩ | ⟨e, hfind, hhit⟩
    · rw [hget] at hmiss
      cases hmiss
    · rw [hget] at hhit
      have hpair := Prod.mk.injEq .. ▸ hhit
      have hst2 : st2 = { runFrom ov (LRUCache.init m) 0 ops with
          cache_list :=
            { e with last_accessed := t } ::
              (runFrom ov (LRUCache.init m) 0 ops).cache_list.eraseP
                (fun e2 : CacheEntry => e2.key == k) } := by
        have := congrArg Prod.fst hhit
        simpa using this
      have hv : some v = some e.value := by
        have := congrArg Prod.snd hhit
        simpa using this
      have hkey : e.key = k := by
        have := List.find?_some hfind
        simpa using this
      refine ⟨{ e with last_accessed := t }, ?_, hkey, ?_⟩
      · rw [hst2]
        rfl
      · cases hv; rfl
  · have hrun := runFrom_preserves ov ops (LRUCache.init m) 0
      (by exact List.Pairwise.nil) (by intro e he; cases he)
    intro h e he
    exact getLast_min_of_recencySorted _ h hrun.1 e he

/-- Witness for `c5_lru_recency` on the trace
`SET a=1; SET b=2; GET a` (final list `[a@2, b@1]`). -/
theorem c5_lru_recency_witness :
    (∃ e, ((LRUCache.get (runFrom 72 (LRUCache.init 1000) 0
          [LOp.setOp "a" "1", LOp.setOp "b" "2", LOp.getOp "a"]) 3
          "a").1.cache_list.head? = some e) ∧ e.key = "a" ∧ e.value = "1") ∧
    (((runFrom 72 (LRUCache.init 1000) 0
          [LOp.setOp "a" "1", LOp.setOp "b" "2",
            LOp.getOp "a"]).cache_list.getLast (by decide)).last_accessed ≤
      (⟨"a", "1", 2⟩ : CacheEntry).last_accessed) :=
  ⟨(c5_lru_recency 72 1000
      [LOp.setOp "a" "1", LOp.setOp "b" "2", LOp.getOp "a"]).1 3 "a"
      (LRUCache.get (runFrom 72 (LRUCache.init 1000) 0
        [LOp.setOp "a" "1", LOp.setOp "b" "2", LOp.getOp "a"]) 3 "a").1
      "1" (by decide),
   (c5_lru_recency 72 1000
      [LOp.setOp "a" "1", LOp.setOp "b" "2", LOp.getOp "a"]).2 (by decide)
      ⟨"a", "1", 2⟩ (by decide)⟩

/-- `std::transform(..., ::toupper)` on an ASCII command verb. -/
def strToUpper (s : String) : String := String.mk (s.data.map Char.toUpper)

/-- `std::transform(..., ::tolower)` on an ASCII parameter name. -/
def strToLower (s : String) : String := String.mk (s.data.map Char.toLower)

/-- The DEL loop of `Server::handle_command`: delete each key in order,
counting the successful deletions. -/
def delAll (st : LRUCache) : List String → LRUCache × Nat
  | [] => (st, 0)
  | k :: ks =>
    let r := LRUCache.del st k
    let rest := delAll r.1 ks
    (rest.1, (if r.2 then 1 else 0) + rest.2)

/-- `Server::encode_resp`: errors become `-ERR <text>\r\n`, the empty string
becomes the null bulk `$-1\r\n`, anything else a simple string `+<text>\r\n`. -/
def encodeResp (response : String) (is_error : Bool) : String :=
  if is_error then "-ERR " ++ response ++ "\r\n"
  else if response == "" then "$-1\r\n"
  else "+" ++ response ++ "\r\n"

/-- `Server::handle_command` of `src/lib/server.h`: dispatch one parsed RESP
command against the `LRUCache` database and produce the reply bytes. -/
def handleCommand (ov : Nat) (st : LRUCache) (now : Nat)
    (command : List String) : LRUCache × String :=
  match command with
  | [] => (st, encodeResp "Invalid command" true)
  | c0 :: args =>
    let cmd := strToUpper c0
    if cmd == "SET" then
      match args with
      | k :: v :: _ => ((LRUCache.set ov st now k v).1, encodeResp "OK" false)
      | _ => (st, encodeResp "SET command requires key and value" true)
    else if cmd == "GET" then
      match args with
      | [] => (st, encodeResp "GET command requires key" true)
      | k :: _ =>
        match LRUCache.get st now k with
        | (st2, some value) =>
            (st2, "$" ++ toString (strSize value) ++ "\r\n" ++ value ++ "\r\n")
        | (st2, none) => (st2, "$-1\r\n")
    else if cmd == "DEL" then
      match args with
      | [] => (st, encodeResp "DEL command requires key" true)
      | _ =>
        let r := delAll st args
        (r.1, ":" ++ toString r.2 ++ "\r\n")
    else if cmd == "INFO" then
      let info := "# Memory\r\n" ++
        "used_memory:" ++ toString st.memory_usage ++ "\r\n" ++
        "maxmemory:" ++ toString st.max_memory ++ "\r\n" ++
        "maxmemory_policy:allkeys-lru\r\n" ++
        "# Stats\r\n" ++
        "keyspace_hits:" ++ toString st.size ++ "\r\n"
      (st, "$" ++ toString (strSize info) ++ "\r\n" ++ info ++ "\r\n")
    else if cmd == "CONFIG" then
      match args with
      | [] => (st, encodeResp "CONFIG command requires subcommand" true)
      | sub :: rest =>
        let subcmd := strToUpper sub
        if subcmd == "GET" ∧ rest.length ≥ 1 then
          let param := strToLower (rest.headD "")
          if param == "maxmemory" then
            (st, "*2\r\n$9\r\nmaxmemory\r\n$" ++
              toString (strSize (toString st.max_memory)) ++ "\r\n" ++
              toString st.max_memory ++ "\r\n")
          else if param == "maxmemory-policy" then
            (st, "*2\r\n$16\r\nmaxmemory-policy\r\n$11\r\nallkeys-lru\r\n")
          else
            (st, encodeResp
              "Supported CONFIG commands: GET maxmemory, GET maxmemory-policy"
              false)
        else
          (st, encodeResp
            "Supported CONFIG commands: GET maxmemory, GET maxmemory-policy"
            false)
    else (st, encodeResp "Unknown command" true)

/-- C7: (a) a SET with at least a key and a value always replies exactly
`+OK\r\n`, whatever `LRUCache::set` did internally (including a too-large
rejection: the return state of `set` is used but its outcome is ignored);
(b) a GET with a key replies the bulk string `$<L>\r\n<value>\r\n` on a hit
and exactly `$-1\r\n` on a miss. -/
theorem c7_dispatcher_set_get (ov : Nat) (st : LRUCache) (now : Nat) :
    (∀ (w k v : String) (rest : List String), strToUpper w = "SET" →
      (handleCommand ov st now (w :: k :: v :: rest)).2 = "+OK\r\n") ∧
    (∀ (w k : String) (rest : List String), strToUpper w = "GET" →
      (handleCommand ov st now (w :: k :: rest)).2 =
        match (LRUCache.get st now k).2 with
        | some value =>
            "$" ++ toString (strSize value) ++ "\r\n" ++ value ++ "\r\n"
        | none => "$-1\r\n") := by
  constructor
  · intro w k v rest hw
    simp [handleCommand, hw, encodeResp]
  · intro w k rest hw
    rcases hg : LRUCache.get st now k with ⟨st2, val⟩
    cases val with
    | none => simp [handleCommand, hw, hg]
    | some value => simp [handleCommand, hw, hg]

/-- Witness for `c7_dispatcher_set_get`: spec §8 scenario (a):
`SET apple red` replies `+OK\r\n`; `GET apple` then replies
`$3\r\nred\r\n`; `GET miss` on the empty cache replies `$-1\r\n`.  The
first SET is also issued on a cache with `max_memory_bytes = 1`, where the
entry is rejected as too large, and the reply is still `+OK\r\n`. -/
theorem c7_dispatcher_set_get_witness :
    (handleCommand 72 (LRUCache.init 1000) 0 ["SET", "apple", "red"]).2 =
        "+OK\r\n" ∧
    (handleCommand 72 (LRUCache.init 1) 0 ["SET", "apple", "red"]).2 =
        "+OK\r\n" ∧
    (handleCommand 72
        (handleCommand 72 (LRUCache.init 1000) 0 ["SET", "apple", "red"]).1
        1 ["GET", "apple"]).2 = "$3\r\nred\r\n" ∧
    (handleCommand 72 (LRUCache.init 1000) 0 ["GET", "miss"]).2 =
        "$-1\r\n" :=
  ⟨(c7_dispatcher_set_get 72 (LRUCache.init 1000) 0).1 "SET" "apple" "red"
      [] (by decide),
   (c7_dispatcher_set_get 72 (LRUCache.init 1) 0).1 "SET" "apple" "red"
      [] (by decide),
   by
    have := (c7_dispatcher_set_get 72
      (handleCommand 72 (LRUCache.init 1000) 0 ["SET", "apple", "red"]).1
      1).2 "GET" "apple" [] (by decide)
    rw [this]
    decide,
   by
    have := (c7_dispatcher_set_get 72 (LRUCache.init 1000) 0).2 "GET"
      "miss" [] (by decide)
    rw [this]
    decide⟩

/-- A node of the `Trie` of `src/lib/tire.h` (identical in `part-b`):
children keyed by character, a `file_offset` (defaulting to `-1`) and an
`isDeleted` mark. -/
inductive TrieNode where
  | node (children : List (Char × TrieNode)) (file_offset : Int)
      (isDeleted : Bool)

/-- A freshly constructed `TrieNode`. -/
def TrieNode.empty : TrieNode := .node [] (-1) false

/-- `children.count(ch)` / `children[ch]` lookup of the `unordered_map`. -/
def childGet (cs : List (Char × TrieNode)) (c : Char) : Option TrieNode :=
  match cs with
  | [] => none
  | (c2, t) :: rest => if c2 = c then some t else childGet rest c

/-- `children[ch] = t` keyed update of the `unordered_map`. -/
def childSet (cs : List (Char × TrieNode)) (c : Char) (t : TrieNode) :
    List (Char × TrieNode) :=
  match cs with
  | [] => [(c, t)]
  | (c2, t2) :: rest =>
    if c2 = c then (c2, t) :: rest else (c2, t2) :: childSet rest c t

/-- `Trie::insert(key, offset)`: walk (creating nodes), then set the
offset and clear the deleted mark. -/
def TrieNode.insert : TrieNode → List Char → Int → TrieNode
  | .node cs _ _, [], o => .node cs o false
  | .node cs off del, c :: rest, o =>
    let child := match childGet cs c with
      | some t => t
      | none => TrieNode.empty
    .node (childSet cs c (child.insert rest o)) off del

/-- `Trie::search(key)`: `-1` when the path is missing or the node is
marked deleted, otherwise the stored offset. -/
def TrieNode.search : TrieNode → List Char → Int
  | .node _ off del, [] => if del then -1 else off
  | .node cs _ _, c :: rest =>
    match childGet cs c with
    | none => -1
    | some t => t.search rest

/-- `Trie::remove(key)`: mark the node deleted; a missing path is a no-op. -/
def TrieNode.removeKey : TrieNode → List Char → TrieNode
  | .node cs off _, [] => .node cs off true
  | .node cs off del, c :: rest =>
    match childGet cs c with
    | none => .node cs off del
    | some t => .node (childSet cs c (t.removeKey rest)) off del

/-- `Trie::isDeleted(key)`: `false` when the path is missing. -/
def TrieNode.isDeletedKey : TrieNode → List Char → Bool
  | .node _ _ del, [] => del
  | .node cs _ _, c :: rest =>
    match childGet cs c with
    | none => false
    | some t => t.isDeletedKey rest

/-- The bucket `hashKey` of `src/lib/bloomfilter.h` maps a key to:
`h` stands for the composition of the two (implementation-defined)
`std::hash` calls. -/
def bfBucket (h : String → Nat) (fsize : Nat) (k : String) : Nat :=
  h k % fsize

/-- `BloomFilter::insert`: increment the bucket counter. -/
def bfInsert (h : String → Nat) (fsize : Nat) (f : List Int) (k : String) :
    List Int :=
  f.set (bfBucket h fsize k) (f.getD (bfBucket h fsize k) 0 + 1)

/-- `BloomFilter::contains`: the bucket counter is positive. -/
def bfContains (h : String → Nat) (fsize : Nat) (f : List Int) (k : String) :
    Bool :=
  f.getD (bfBucket h fsize k) 0 > 0

/-- `BloomFilter::remove`: decrement the bucket counter unless it is zero. -/
def bfRemove (h : String → Nat) (fsize : Nat) (f : List Int) (k : String) :
    List Int :=
  if f.getD (bfBucket h fsize k) 0 = 0 then f
  else f.set (bfBucket h fsize k) (f.getD (bfBucket h fsize k) 0 - 1)

/-- `isspace` in the C locale. -/
def isWs (c : Char) : Bool :=
  c == ' ' || c == '\t' || c == '\n' || c == '\r' || c == '\x0b' || c == '\x0c'

/-- `stream >> token` from byte position `pos` of the file: skip
whitespace, then read a maximal non-whitespace run.  `none` is extraction
failure (end of file), which in the source leaves the target string empty
and the stream failed. -/
def readToken (f : List Char) (pos : Nat) : Option (String × Nat) :=
  let rest := f.drop pos
  let wskip := (rest.takeWhile isWs).length
  let tok := (rest.drop wskip).takeWhile (fun c => !isWs c)
  if tok.isEmpty then none
  else some (String.mk tok, pos + wskip + tok.length)

/-- `stream >> key >> value` as used by `syncIndex` and the rewrite loops. -/
def readKV (f : List Char) (pos : Nat) : Option (String × String × Nat) :=
  match readToken f pos with
  | none => none
  | some (k, p1) =>
    match readToken f p1 with
    | none => none
    | some (v, p2) => some (k, v, p2)

/-- `std::getline(dataFile >> std::ws, value)`: `std::ws` discards
whitespace (crossing newlines), then `getline` reads up to the next
newline; if the skip reaches end of file the extraction fails and the
string is left empty. -/
def readRestLine (f : List Char) (pos : Nat) : String :=
  let rest := f.drop pos
  let rest2 := rest.drop (rest.takeWhile isWs).length
  String.mk (rest2.takeWhile (fun c => c ≠ '\n'))

/-- State of `PersistenceKVStore` (`src/lib/persistence_kv_store.h`; the
`part-b` variant differs only in its rewrite pass): the trie index, the
counting filter with its bucket count, and the log file bytes. -/
structure PKV where
  index : TrieNode
  filter : List Int
  fsize : Nat
  file : List Char

/-- A fresh store over an empty file: `BloomFilter(_size)` zero-fills
`filter(_size)`. -/
def PKV.init (fsize : Nat) : PKV :=
  { index := TrieNode.empty, filter := List.replicate fsize 0,
    fsize := fsize, file := [] }

/-- `PersistenceKVStore::insert(key, value)`: append
`key << " " << value << std::endl` at end of file (the recorded offset is
the pre-append file size, i.e. `tellp` at end), then update index and
filter. -/
def PKV.insert (h : String → Nat) (st : PKV) (k v : String) : PKV :=
  let offset := st.file.length
  { st with
    file := st.file ++ (k.data ++ (' ' :: v.data) ++ ['\n']),
    index := st.index.insert k.data (offset : Int),
    filter := bfInsert h st.fsize st.filter k }

/-- `PersistenceKVStore::remove(key)`: mark the index entry deleted and
decrement the filter; no file write. -/
def PKV.remove (h : String → Nat) (st : PKV) (k : String) : PKV :=
  { st with
    index := st.index.removeKey k.data,
    filter := bfRemove h st.fsize st.filter k }

/-- `PersistenceKVStore::get(key, value)` (identical in both variants):
filter gate, index lookup, seek, on-disk key confirmation, then
`getline(dataFile >> std::ws, value)` and the final `!value.empty()`. -/
def PKV.get (h : String → Nat) (st : PKV) (k : String) : Option String :=
  if !bfContains h st.fsize st.filter k then none
  else
    let off := st.index.search k.data
    if off == -1 then none
    else
      let tokRes := readToken st.file off.toNat
      let storedKey := match tokRes with
        | none => ""
        | some (t, _) => t
      if storedKey ≠ k then none
      else
        let value := match tokRes with
          | none => ""
          | some (_, p1) => readRestLine st.file p1
        if value == "" then none else some value

/-- A key is live when it has a non-deleted index entry. -/
def PKV.isLive (st : PKV) (k : String) : Bool :=
  st.index.search k.data != -1

example : (PKV.insert (fun _ => 0) (PKV.init 1) "a" "x").file =
    ("a x\n").data := by decide

example : (PKV.insert (fun _ => 0) (PKV.init 1) "a" "x").isLive "a" =
    true := by decide

example : PKV.get (fun _ => 0)
    (PKV.insert (fun _ => 0) (PKV.init 1) "a" "x") "a" = some "x" := by
  decide

/-- `newOffsets[key] = offset` of the `unordered_map` in the `src/lib`
rewrite: keyed upsert. -/
def upsertOffset (offs : List (String × Nat)) (k : String) (off : Nat) :
    List (String × Nat) :=
  match offs with
  | [] => [(k, off)]
  | (k2, o2) :: rest =>
    if k2 = k then (k2, off) :: rest else (k2, o2) :: upsertOffset rest k off

/-- The scan loop of `PersistenceKVStore::triggerRewrite` in
`src/lib/persistence_kv_store.h`: `while (dataFile >> key >> value)` copy
every record whose key is not marked deleted to the temp file, remembering
the temp offset (`tellp` before the write) in `newOffsets`.  Fuel bounds
the iteration count; it is instantiated with `file.length + 1`, which
suffices because every successful read advances the position. -/
def rwLoopLib (index : TrieNode) (file : List Char) :
    Nat → Nat → List Char → List (String × Nat) →
    List Char × List (String × Nat)
  | 0, _, temp, offs => (temp, offs)
  | fuel + 1, pos, temp, offs =>
    match readKV file pos with
    | none => (temp, offs)
    | some (k, v, pos2) =>
      if index.isDeletedKey k.data then
        rwLoopLib index file fuel pos2 temp offs
      else
        rwLoopLib index file fuel pos2
          (temp ++ (k.data ++ (' ' :: v.data) ++ ['\n']))
          (upsertOffset offs k temp.length)

/-- `PersistenceKVStore::triggerRewrite` of `src/lib`: replace the live
file with the temp file and re-insert every surviving key's new offset
into the (kept) index.  The filter is untouched. -/
def PKV.triggerRewriteLib (st : PKV) : PKV :=
  let r := rwLoopLib st.index st.file (st.file.length + 1) 0 [] []
  { st with
    file := r.1,
    index := r.2.foldl (fun t p => t.insert p.1.data (p.2 : Int)) st.index }

/-- The scan loop of `PersistenceKVStore::triggerRewrite` in
`src/part-b/lib/persistence_kv_store.h`: at each iteration take
`curr_pos = tellg()` before the read, skip records whose key's index
offset is `-1`, and keep a record only when the index offset equals
`curr_pos + 1`, inserting it into the fresh index. -/
def rwLoopB (index : TrieNode) (file : List Char) :
    Nat → Nat → List Char → TrieNode → List Char × TrieNode
  | 0, _, temp, newIdx => (temp, newIdx)
  | fuel + 1, pos, temp, newIdx =>
    match readKV file pos with
    | none => (temp, newIdx)
    | some (k, v, pos2) =>
      let key_offset := index.search k.data
      if key_offset == -1 then
        rwLoopB index file fuel pos2 temp newIdx
      else if key_offset == (pos : Int) + 1 then
        rwLoopB index file fuel pos2
          (temp ++ (k.data ++ (' ' :: v.data) ++ ['\n']))
          (newIdx.insert k.data (temp.length : Int))
      else
        rwLoopB index file fuel pos2 temp newIdx

/-- `PersistenceKVStore::triggerRewrite` of `src/part-b`: replace the live
file with the temp file and swap in the freshly built index. -/
def PKV.triggerRewriteB (st : PKV) : PKV :=
  let r := rwLoopB st.index st.file (st.file.length + 1) 0 [] TrieNode.empty
  { st with file := r.1, index := r.2 }

/-- The records of a log file, read the way every scan in the source reads
them (`>> key >> value` pairs until extraction fails). -/
def recordsOf (f : List Char) : List (String × String) :=
  recordsAux f (f.length + 1) 0
where
  recordsAux (f : List Char) : Nat → Nat → List (String × String)
    | 0, _ => []
    | fuel + 1, pos =>
      match readKV f pos with
      | none => []
      | some (k, v, p2) => (k, v) :: recordsAux f fuel p2

/-- Store state, for C3, holding two records for the single live key
`"a" ↦ "y"` (the `"a x"` record is stale). -/
def c3LibState : PKV :=
  PKV.insert (fun _ => 0) (PKV.insert (fun _ => 0) (PKV.init 1) "a" "x")
    "a" "y"

/-- Store state, for C3, holding one live key `"a" ↦ "v"` whose only
record is at offset 0. -/
def c3BState : PKV := PKV.insert (fun _ => 0) (PKV.init 1) "a" "v"

/-- C3 (code bug), both compaction variants violate the claim:
(a) `src/lib`: the rewrite keeps every record whose key is not deleted,
so a live key that was overwritten keeps its stale duplicate — after
compacting a log with two records for live `"a"`, the new file still holds
two records for `"a"`, not exactly one;
(b) `src/part-b`: the rewrite keeps a record only when
`index.search(key) == tellg() + 1`, compensating for the unconsumed
newline of the previous line — but the first record starts at offset 0
while `tellg() + 1 = 1`, so the file's first record is always dropped:
after compacting a log whose single live key sits at offset 0, the new
file is empty and the key's index entry is gone. -/
theorem c3_compaction_bug :
    ((recordsOf (PKV.triggerRewriteLib c3LibState).file).countP
        (fun r => r.1 == "a") = 2 ∧
      c3LibState.isLive "a" = true) ∧
    (c3BState.isLive "a" = true ∧
      (PKV.triggerRewriteB c3BState).file = [] ∧
      (PKV.triggerRewriteB c3BState).isLive "a" = false) := by
  decide

/-- Sanity check of the `+1` compensation in the `part-b` rewrite: records
after the first one are compared correctly and survive when live. -/
example :
    (PKV.triggerRewriteB
        (PKV.insert (fun _ => 0) (PKV.insert (fun _ => 0) (PKV.init 1)
          "a" "x") "b" "y")).isLive "b" = true := by decide

/-- Store with an empty-valued record `"k \n"` followed by `"j x\n"`. -/
def c9State : PKV :=
  PKV.insert (fun _ => 0) (PKV.insert (fun _ => 0) (PKV.init 1) "k" "") "j" "x"

/-- C9 counterexample: for key `"k"` whose log record stores the empty
string, `get("k")` does NOT return a miss when another record follows:
`dataFile >> std::ws` skips the space AND the newline, and `getline` then
reads the next record's text, so the call returns a hit with value
`"j x"`.  The claim's universally quantified first sentence is false. -/
theorem c9_empty_value_counterexample :
    c9State.file = ("k \nj x\n").data ∧
      c9State.isLive "k" = true ∧
      PKV.get (fun _ => 0) c9State "k" = some "j x" := by
  decide

/-- C9 amended: a hit of `PersistenceKVStore::get` always carries a
non-empty value (the final `return !_value.empty()`), and a key whose
empty-valued record is the last record of the file does miss; but when the
empty-valued record is followed by more data, the whitespace skip crosses
the newline and `get` returns the following line's text as a hit
(`c9_empty_value_counterexample`). -/
theorem c9_empty_value_amended :
    (∀ (h : String → Nat) (st : PKV) (k v : String),
        PKV.get h st k = some v → v ≠ "") ∧
      PKV.get (fun _ => 0)
        (PKV.insert (fun _ => 0) (PKV.init 1) "k" "") "k" = none := by
  constructor
  · intro h st k v hget
    unfold PKV.get at hget
    dsimp only at hget
    split at hget
    · cases hget
    · split at hget
      · cases hget
      · split at hget
        · cases hget
        · split at hget
          · cases hget
          · rename_i hne
            cases hget
            simpa using hne
  · decide

/-- Witness for `c9_empty_value_amended` applied at the concrete hit of
`c9_empty_value_counterexample`-like input. -/
theorem c9_empty_value_amended_witness : ("j x" : String) ≠ "" :=
  c9_empty_value_amended.1 (fun _ => 0) c9State "k" "j x" (by decide)

theorem childGet_childSet_self (cs : List (Char × TrieNode)) (c : Char)
    (t : TrieNode) : childGet (childSet cs c t) c = some t := by
  induction cs with
  | nil => simp [childSet, childGet]
  | cons p rest ih =>
    obtain ⟨c2, t2⟩ := p
    by_cases hc : c2 = c
    · subst hc; simp [childSet, childGet]
    · simp [childSet, childGet, hc, ih]

theorem childGet_childSet_ne (cs : List (Char × TrieNode)) (c c2 : Char)
    (t : TrieNode) (hne : c2 ≠ c) :
    childGet (childSet cs c t) c2 = childGet cs c2 := by
  induction cs with
  | nil => simp [childSet, childGet, Ne.symm hne]
  | cons p rest ih =>
    obtain ⟨a, ta⟩ := p
    by_cases ha : a = c
    · subst ha
      simp [childSet, childGet, Ne.symm hne]
    · by_cases ha2 : a = c2
      · subst ha2; simp [childSet, childGet, ha]
      · simp [childSet, childGet, ha, ha2, ih]

theorem search_empty (k : List Char) : TrieNode.empty.search k = -1 := by
  cases k with
  | nil => rfl
  | cons c rest => rfl

theorem search_insert_self :
    ∀ (k : List Char) (t : TrieNode) (o : Int),
      (t.insert k o).search k = o := by
  intro k
  induction k with
  | nil =>
    intro t o
    cases t
    simp [TrieNode.insert, TrieNode.search]
  | cons c rest ih =>
    intro t o
    cases t with
    | node cs off del =>
      simp only [TrieNode.insert, TrieNode.search]
      rw [childGet_childSet_self]
      exact ih _ o

theorem search_insert_ne :
    ∀ (k : List Char) (t : TrieNode) (k2 : List Char) (o : Int),
      k2 ≠ k → (t.insert k o).search k2 = t.search k2 := by
  intro k
  induction k with
  | nil =>
    intro t k2 o hne
    cases t with
    | node cs off del =>
      cases k2 with
      | nil => exact absurd rfl hne
      | cons c2 r2 => simp [TrieNode.insert, TrieNode.search]
  | cons c rest ih =>
    intro t k2 o hne
    cases t with
    | node cs off del =>
      cases k2 with
      | nil => simp [TrieNode.insert, TrieNode.search]
      | cons c2 r2 =>
        by_cases hc : c2 = c
        · subst hc
          have hr : r2 ≠ rest := fun hr => hne (by rw [hr])
          simp only [TrieNode.insert, TrieNode.search]
          rw [childGet_childSet_self]
          cases hcg : childGet cs c2 with
          | none =>
            dsimp only
            exact (ih _ _ o hr).trans (search_empty r2)
          | some t2 =>
            dsimp only
            exact ih _ _ o hr
        · simp only [TrieNode.insert, TrieNode.search]
          rw [childGet_childSet_ne _ _ _ _ hc]

theorem search_remove_self :
    ∀ (k : List Char) (t : TrieNode), (t.removeKey k).search k = -1 := by
  intro k
  induction k with
  | nil =>
    intro t
    cases t
    simp [TrieNode.removeKey, TrieNode.search]
  | cons c rest ih =>
    intro t
    cases t with
    | node cs off del =>
      simp only [TrieNode.removeKey]
      cases hcg : childGet cs c with
      | none => simp [TrieNode.search, hcg]
      | some t2 =>
        simp only [TrieNode.search]
        rw [childGet_childSet_self]
        exact ih t2

theorem search_remove_ne :
    ∀ (k : List Char) (t : TrieNode) (k2 : List Char),
      k2 ≠ k → (t.removeKey k).search k2 = t.search k2 := by
  intro k
  induction k with
  | nil =>
    intro t k2 hne
    cases t with
    | node cs off del =>
      cases k2 with
      | nil => exact absurd rfl hne
      | cons c2 r2 => simp [TrieNode.removeKey, TrieNode.search]
  | cons c rest ih =>
    intro t k2 hne
    cases t with
    | node cs off del =>
      cases k2 with
      | nil =>
        simp only [TrieNode.removeKey]
        cases hcg : childGet cs c with
        | none => rfl
        | some t2 => rfl
      | cons c2 r2 =>
        by_cases hc : c2 = c
        · subst hc
          have hr : r2 ≠ rest := fun hr => hne (by rw [hr])
          simp only [TrieNode.removeKey]
          cases hcg : childGet cs c2 with
          | none => rfl
          | some t2 =>
            simp only [TrieNode.search]
            rw [childGet_childSet_self]
            dsimp only
            rw [hcg]
            exact ih t2 r2 hr
        · simp only [TrieNode.removeKey]
          cases hcg : childGet cs c with
          | none => rfl
          | some t2 =>
            simp only [TrieNode.search]
            rw [childGet_childSet_ne _ _ _ _ hc]

theorem string_data_inj {a b : String} (h : a.data = b.data) : a = b := by
  cases a
  cases b
  exact congrArg String.mk h

theorem getD_set_self (l : List Int) (i : Nat) (x : Int)
    (h : i < l.length) : (l.set i x).getD i 0 = x := by
  induction l generalizing i with
  | nil => simp at h
  | cons a rest ih =>
    cases i with
    | zero => rfl
    | succ j =>
      simp only [List.set, List.getD, List.getElem?_cons_succ]
      have := ih j (by simpa using h)
      simpa [List.getD] using this

theorem getD_set_ne (l : List Int) (i j : Nat) (x : Int) (hne : j ≠ i) :
    (l.set i x).getD j 0 = l.getD j 0 := by
  induction l generalizing i j with
  | nil => simp [List.set]
  | cons a rest ih =>
    cases i with
    | zero =>
      cases j with
      | zero => exact absurd rfl hne
      | succ j2 => rfl
    | succ i2 =>
      cases j with
      | zero => rfl
      | succ j2 =>
        simp only [List.set, List.getD, List.getElem?_cons_succ]
        have := ih i2 j2 (fun hh => hne (by rw [hh]))
        simpa [List.getD] using this

theorem countP_erase_of_mem (p : String → Bool) (k : String) :
    ∀ (S : List String), k ∈ S →
      S.countP p = (S.erase k).countP p + (if p k then 1 else 0) := by
  intro S
  induction S with
  | nil => intro hk; cases hk
  | cons a rest ih =>
    intro hk
    by_cases ha : a = k
    · subst ha
      rw [List.erase_cons_head]
      rw [List.countP_cons]
    · have hk2 : k ∈ rest := by
        rcases List.mem_cons.mp hk with h1 | h1
        · exact absurd h1.symm ha
        · exact h1
      rw [List.erase_cons_tail (by simpa using ha)]
      rw [List.countP_cons, List.countP_cons, ih hk2]
      omega

theorem countP_pos_of_mem {p : String → Bool} {k : String}
    {S : List String} (hk : k ∈ S) (hp : p k = true) :
    1 ≤ S.countP p := by
  induction S with
  | nil => cases hk
  | cons a rest ih =>
    rw [List.countP_cons]
    rcases List.mem_cons.mp hk with h1 | h1
    · subst h1; simp only [hp, if_pos trivial, if_true]; omega
    · have := ih h1; omega

theorem getD_replicate_zero (n : Nat) :
    ∀ b : Nat, (List.replicate n (0 : Int)).getD b 0 = 0 := by
  induction n with
  | zero => intro b; simp [List.getD]
  | succ m ih =>
    intro b
    cases b with
    | zero => rfl
    | succ b2 =>
      simp only [List.replicate, List.getD, List.getElem?_cons_succ]
      simp only [List.getD] at ih
      exact ih b2

/-- One operation against the persistence tier (the mutators that touch
index and filter). -/
inductive POp where
  | ins (k v : String)
  | rem (k : String)
deriving Repr, DecidableEq

/-- Execute one persistence-tier operation. -/
def pstep (h : String → Nat) (st : PKV) : POp → PKV
  | .ins k v => PKV.insert h st k v
  | .rem k => PKV.remove h st k

/-- Run a sequence of persistence-tier operations. -/
def prun (h : String → Nat) (st : PKV) : List POp → PKV
  | [] => st
  | op :: ops => prun h (pstep h st op) ops

/-- A trace in which `remove` is only invoked on keys that are live at the
time of the call. -/
def OkTrace (h : String → Nat) (st : PKV) : List POp → Prop
  | [] => True
  | op :: ops =>
    (match op with
      | .rem k => st.isLive k = true
      | .ins _ _ => True) ∧ OkTrace h (pstep h st op) ops

/-- Invariant tying the store to a duplicate-free support list `S` of its
live keys: every filter bucket counts at least the live keys hashing
into it. -/
def InvS (h : String → Nat) (st : PKV) (S : List String) : Prop :=
  0 < st.fsize ∧
  st.filter.length = st.fsize ∧
  S.Nodup ∧
  (∀ k2, st.isLive k2 = true ↔ k2 ∈ S) ∧
  (∀ b : Nat,
    (S.countP (fun k2 => bfBucket h st.fsize k2 == b) : Int) ≤
      st.filter.getD b 0)

theorem isLive_iff_search_ne (st : PKV) (k : String) :
    st.isLive k = true ↔ st.index.search k.data ≠ -1 := by
  unfold PKV.isLive
  simp [bne_iff_ne]

theorem InvS_insert (h : String → Nat) (st : PKV) (S : List String)
    (k v : String) (hinv : InvS h st S) :
    InvS h (PKV.insert h st k v) (if k ∈ S then S else k :: S) := by
  obtain ⟨hfs, hlen, hnd, hlive, hcount⟩ := hinv
  have hb0 : bfBucket h st.fsize k < st.filter.length := by
    rw [hlen]; exact Nat.mod_lt _ hfs
  refine ⟨hfs, ?_, ?_, ?_, ?_⟩
  · show (bfInsert h st.fsize st.filter k).length = st.fsize
    unfold bfInsert
    rw [List.length_set, hlen]
  · by_cases hk : k ∈ S
    · simp only [if_pos hk]; exact hnd
    · simp only [if_neg hk]; exact List.nodup_cons.mpr ⟨hk, hnd⟩
  · intro k2
    by_cases hk2 : k2 = k
    · subst hk2
      have hsrch : (PKV.insert h st k2 v).index.search k2.data =
          (st.file.length : Int) := by
        unfold PKV.insert
        exact search_insert_self k2.data st.index _
      constructor
      · intro _
        by_cases hk : k2 ∈ S
        · simp [if_pos hk, hk]
        · simp [if_neg hk]
      · intro _
        rw [isLive_iff_search_ne, hsrch]
        omega
    · have hdata : k2.data ≠ k.data := fun hd => hk2 (string_data_inj hd)
      have hsrch : (PKV.insert h st k v).index.search k2.data =
          st.index.search k2.data := by
        unfold PKV.insert
        exact search_insert_ne k.data st.index k2.data _ hdata
      rw [isLive_iff_search_ne, hsrch, ← isLive_iff_search_ne, hlive k2]
      by_cases hk : k ∈ S
      · simp [if_pos hk]
      · simp [if_neg hk, List.mem_cons, hk2]
  · intro b
    have hfilter : (PKV.insert h st k v).filter =
        st.filter.set (bfBucket h st.fsize k)
          (st.filter.getD (bfBucket h st.fsize k) 0 + 1) := rfl
    have hfsize : (PKV.insert h st k v).fsize = st.fsize := rfl
    rw [hfilter, hfsize]
    by_cases hb : bfBucket h st.fsize k = b
    · subst hb
      rw [getD_set_self _ _ _ hb0]
      by_cases hk : k ∈ S
      · simp only [if_pos hk]
        have := hcount (bfBucket h st.fsize k)
        omega
      · simp only [if_neg hk, List.countP_cons]
        have := hcount (bfBucket h st.fsize k)
        simp only [beq_self_eq_true, if_pos trivial, if_true]
        push_cast
        omega
    · rw [getD_set_ne _ _ _ _ (fun hh => hb hh.symm)]
      by_cases hk : k ∈ S
      · simp only [if_pos hk]
        exact hcount b
      · simp only [if_neg hk, List.countP_cons]
        have hpk : (bfBucket h st.fsize k == b) = false := by
          simpa using hb
        rw [hpk]
        simpa using hcount b

theorem InvS_remove (h : String → Nat) (st : PKV) (S : List String)
    (k : String) (hinv : InvS h st S) (hlv : st.isLive k = true) :
    InvS h (PKV.remove h st k) (S.erase k) := by
  obtain ⟨hfs, hlen, hnd, hlive, hcount⟩ := hinv
  have hkS : k ∈ S := (hlive k).mp hlv
  have hb0 : bfBucket h st.fsize k < st.filter.length := by
    rw [hlen]; exact Nat.mod_lt _ hfs
  have hcnt1 :
      1 ≤ S.countP
        (fun k2 => bfBucket h st.fsize k2 == bfBucket h st.fsize k) :=
    countP_pos_of_mem hkS (by simp)
  have hgd1 : 1 ≤ st.filter.getD (bfBucket h st.fsize k) 0 := by
    have := hcount (bfBucket h st.fsize k)
    omega
  have hfilter : (PKV.remove h st k).filter =
      st.filter.set (bfBucket h st.fsize k)
        (st.filter.getD (bfBucket h st.fsize k) 0 - 1) := by
    show bfRemove h st.fsize st.filter k = _
    unfold bfRemove
    rw [if_neg (by omega)]
  refine ⟨hfs, ?_, List.Nodup.erase k hnd, ?_, ?_⟩
  · show (PKV.remove h st k).filter.length = st.fsize
    rw [hfilter, List.length_set, hlen]
  · intro k2
    by_cases hk2 : k2 = k
    · subst hk2
      have hsrch : (PKV.remove h st k2).index.search k2.data = -1 := by
        unfold PKV.remove
        exact search_remove_self k2.data st.index
      rw [isLive_iff_search_ne, hsrch]
      simp [List.Nodup.mem_erase_iff hnd]
    · have hdata : k2.data ≠ k.data := fun hd => hk2 (string_data_inj hd)
      have hsrch : (PKV.remove h st k).index.search k2.data =
          st.index.search k2.data := by
        unfold PKV.remove
        exact search_remove_ne k.data st.index k2.data hdata
      rw [isLive_iff_search_ne, hsrch, ← isLive_iff_search_ne, hlive k2]
      simp [List.Nodup.mem_erase_iff hnd, hk2]
  · intro b
    have hfsize : (PKV.remove h st k).fsize = st.fsize := rfl
    rw [hfilter, hfsize]
    have hsplit := countP_erase_of_mem
      (fun k2 => bfBucket h st.fsize k2 == b) k S hkS
    by_cases hb : bfBucket h st.fsize k = b
    · subst hb
      rw [getD_set_self _ _ _ hb0]
      have := hcount (bfBucket h st.fsize k)
      simp only [beq_self_eq_true, if_pos trivial, if_true] at hsplit
      have hge :
          1 ≤ S.countP
            (fun k2 => bfBucket h st.fsize k2 == bfBucket h st.fsize k) :=
        hcnt1
      omega
    · rw [getD_set_ne _ _ _ _ (fun hh => hb hh.symm)]
      have hpk : (bfBucket h st.fsize k == b) = false := by
        simpa using hb
      simp only [hpk, Bool.false_eq_true, if_false] at hsplit
      have := hcount b
      omega

theorem prun_InvS (h : String → Nat) :
    ∀ (ops : List POp) (st : PKV) (S : List String),
      InvS h st S → OkTrace h st ops →
      ∃ S2, InvS h (prun h st ops) S2 := by
  intro ops
  induction ops with
  | nil => exact fun st S hi _ => ⟨S, hi⟩
  | cons op rest ih =>
    intro st S hi hok
    obtain ⟨hop, hok2⟩ := hok
    cases op with
    | ins k v => exact ih _ _ (InvS_insert h st S k v hi) hok2
    | rem k => exact ih _ _ (InvS_remove h st S k hi hop) hok2

theorem InvS_init (h : String → Nat) (fsize : Nat) (hf : 0 < fsize) :
    InvS h (PKV.init fsize) [] := by
  refine ⟨hf, by simp [PKV.init], List.nodup_nil, ?_, ?_⟩
  · intro k2
    rw [isLive_iff_search_ne]
    show TrieNode.empty.search k2.data ≠ -1 ↔ k2 ∈ ([] : List String)
    rw [search_empty]
    simp
  · intro b
    show ((0 : Nat) : Int) ≤ (List.replicate fsize (0 : Int)).getD b 0
    rw [getD_replicate_zero]
    simp

/-- Store for the C4 counterexample: with `bloom_filter_size = 1` every
key shares the single bucket; `insert("a","v")` then
`remove("b")` (a key that is not present) decrements that bucket to 0. -/
def c4State : PKV :=
  PKV.remove (fun _ => 0)
    (PKV.insert (fun _ => 0) (PKV.init 1) "a" "v") "b"

/-- C4 counterexample: after `insert("a","v"); remove("b")` on a store
with `bloom_filter_size = 1`, key `"a"` still has a live, non-deleted
index entry, but `BloomFilter::contains("a")` is `false`: the
unconditional `bloomFilter.remove(_key)` in `PersistenceKVStore::remove`
decremented the bucket shared by `"a"` and `"b"`, false-negating the live
key.  (With bucket count 1 this is independent of the hash function.) -/
theorem c4_filter_counterexample :
    c4State.isLive "a" = true ∧
      bfContains (fun _ => 0) c4State.fsize c4State.filter "a" = false := by
  decide

/-- C4 amended: restricted to traces in which `remove` is only invoked on
keys with a live index entry, the counting filter never false-negates:
after any such operation sequence from a fresh store, every key with a
non-deleted index entry satisfies `contains = true` — for every hash
function and every positive bucket count.  (The unrestricted claim fails:
`c4_filter_counterexample`.) -/
theorem c4_filter_amended (h : String → Nat) (fsize : Nat)
    (hf : 0 < fsize) (ops : List POp)
    (hok : OkTrace h (PKV.init fsize) ops) (k : String)
    (hlive : (prun h (PKV.init fsize) ops).isLive k = true) :
    bfContains h (prun h (PKV.init fsize) ops).fsize
      (prun h (PKV.init fsize) ops).filter k = true := by
  obtain ⟨S, hinv⟩ := prun_InvS h ops (PKV.init fsize) [] (InvS_init h fsize hf) hok
  obtain ⟨hfs, hlen, hnd, hliveS, hcount⟩ := hinv
  have hk : k ∈ S := (hliveS k).mp hlive
  have h1 :
      1 ≤ S.countP (fun k2 =>
        bfBucket h (prun h (PKV.init fsize) ops).fsize k2 ==
          bfBucket h (prun h (PKV.init fsize) ops).fsize k) :=
    countP_pos_of_mem hk (by simp)
  have h2 := hcount (bfBucket h (prun h (PKV.init fsize) ops).fsize k)
  unfold bfContains
  simp only [gt_iff_lt, decide_eq_true_eq]
  omega

/-- Witness for `c4_filter_amended` on the disciplined trace
`insert a; remove a (live); insert b` with one bucket. -/
theorem c4_filter_amended_witness :
    bfContains (fun _ => 0)
      (prun (fun _ => 0) (PKV.init 1)
        [POp.ins "a" "v", POp.rem "a", POp.ins "b" "w"]).fsize
      (prun (fun _ => 0) (PKV.init 1)
        [POp.ins "a" "v", POp.rem "a", POp.ins "b" "w"]).filter "b" =
      true :=
  c4_filter_amended (fun _ => 0) 1 (by decide)
    [POp.ins "a" "v", POp.rem "a", POp.ins "b" "w"]
    ⟨trivial, (by decide), trivial, trivial⟩ "b" (by decide)

/-- `std::stoi`: skip whitespace, optional sign, then digits; `none` models
the `std::invalid_argument` exception when no digits are found.  (The
`out_of_range` case for values beyond `INT_MAX` is not modelled; no claim
involves such inputs.) -/
def stoiQ (s : String) : Option Int :=
  let cs := s.data.dropWhile isWs
  let signAndRest : Int × List Char :=
    match cs with
    | '-' :: rest => (-1, rest)
    | '+' :: rest => (1, rest)
    | _ => (1, cs)
  let digits := signAndRest.2.takeWhile Char.isDigit
  if digits.isEmpty then none
  else
    some (signAndRest.1 *
      ((digits.foldl (fun n c => n * 10 + (c.toNat - 48)) 0 : Nat) : Int))

/-- Position of the first occurrence of `"\r\n"` at an index `≥ i`. -/
def findCRLFAux : List Char → Nat → Option Nat
  | [], _ => none
  | c :: rest, i =>
    match c, rest with
    | '\r', '\n' :: _ => some i
    | _, _ => findCRLFAux rest (i + 1)

/-- `input.find("\r\n", pos)`: `none` models `npos`. -/
def findCRLF (input : List Char) (pos : Nat) : Option Nat :=
  findCRLFAux (input.drop pos) pos

/-- `pos += d` in `size_t` arithmetic (64-bit wrap), with `d : Int`. -/
def addSize (pos : Nat) (d : Int) : Nat :=
  (((pos : Int) + d) % ((2 : Int) ^ 64)).toNat

/-- The bulk-string loop of `Server::parse_resp` / `parse_key`: `i` counts
the remaining iterations (`array_len` in total; an iteration whose byte is
not `'$'` changes nothing but still consumes an iteration).  `none` models
a `std::stoi` exception (the process would crash). -/
def parseLoop (input : List Char) : Nat → Nat → List String → Option (List String)
  | 0, _, acc => some acc
  | i + 1, pos, acc =>
    if pos ≥ input.length then some acc
    else if input[pos]? = some '$' then
      let pos1 := pos + 1
      match findCRLF input pos1 with
      | some nl =>
        match stoiQ (String.mk ((input.drop pos1).take (nl - pos1))) with
        | none => none
        | some str_len =>
          let pos2 := nl + 2
          let cnt := if str_len < 0 then input.length else str_len.toNat
          let tok := String.mk ((input.drop pos2).take cnt)
          parseLoop input i (addSize pos2 (str_len + 2)) (acc ++ [tok])
      | none =>
        match stoiQ (String.mk (input.drop pos1)) with
        | none => none
        | some str_len =>
          let pos2 := 1
          let cnt := if str_len < 0 then input.length else str_len.toNat
          let tok := String.mk ((input.drop pos2).take cnt)
          parseLoop input i (addSize pos2 (str_len + 2)) (acc ++ [tok])
    else parseLoop input i pos acc

/-- `Server::parse_resp` of `src/lib/server.h`; the parsing part of
`parse_key` in `src/src/blink_server_with_lb.cpp` is textually identical.
An empty input or one not starting with `'*'` leaves `result` empty.
In the header, `find("\r\n")` returning `npos` makes `substr` read to the
end of the string and `pos = npos + 2` wraps to `1` in 64-bit `size_t`.
`none` models a `std::stoi` exception. -/
def parseResp (input : String) : Option (List String) :=
  match input.data with
  | [] => some []
  | c :: _ =>
    if c = '*' then
      match findCRLF input.data 1 with
      | some nl =>
        match stoiQ (String.mk ((input.data.drop 1).take (nl - 1))) with
        | none => none
        | some array_len => parseLoop input.data array_len.toNat (nl + 2) []
      | none =>
        match stoiQ (String.mk (input.data.drop 1)) with
        | none => none
        | some array_len => parseLoop input.data array_len.toNat 1 []
    else some []

/-- `parse_key` of `src/src/blink_server_with_lb.cpp`: an empty buffer
returns `""` early; every other input ends in `return result[1]`, which is
an out-of-bounds `std::vector` access (undefined behaviour) whenever the
parse produced fewer than two elements — modelled as `none`. -/
def parseKeyQ (buffer : String) : Option String :=
  if buffer = "" then some ""
  else
    match parseResp buffer with
    | none => none
    | some r => r[1]?

example : parseResp "*1\r\n$4\r\nINFO\r\n" = some ["INFO"] := by decide

example : parseResp "*2\r\n$3\r\nGET\r\n$3\r\nfoo\r\n" =
    some ["GET", "foo"] := by decide

example : parseKeyQ "*2\r\n$3\r\nGET\r\n$3\r\nfoo\r\n" = some "foo" := by
  decide

/-- C10 counterexample: the empty input does NOT reach the out-of-bounds
`result[1]` access — `parse_key` returns `""` from its early
`if (input.empty()) return "";`, although `""` does not start with `'*'`.
The claim's universal quantification over all inputs not starting with
`'*'` is therefore off by this one case. -/
theorem c10_parse_key_counterexample :
    parseKeyQ "" = some "" ∧ ("" : String).data.head? ≠ some '*' := by
  decide

/-- C10 amended: for every NON-EMPTY input that does not start with `'*'`,
and more generally whenever the RESP parse yields fewer than two elements
(e.g. the one-element command `*1\r\n$4\r\nINFO\r\n`), `parse_key` reaches
`result[1]` on an undersized vector, so the routing step has no defined
key (the embedded lookup returns `none`).  Only the empty input escapes
via the early `return ""`. -/
theorem c10_parse_key_amended :
    (∀ s : String, s ≠ "" → s.data.head? ≠ some '*' → parseKeyQ s = none) ∧
    (∀ (s : String) (r : List String), s ≠ "" → parseResp s = some r →
      r.length < 2 → parseKeyQ s = none) ∧
    (parseResp "*1\r\n$4\r\nINFO\r\n" = some ["INFO"] ∧
      parseKeyQ "*1\r\n$4\r\nINFO\r\n" = none) := by
  refine ⟨?_, ?_, by decide⟩
  · intro s hne hstar
    have hresp : parseResp s = some [] := by
      unfold parseResp
      cases hd : s.data with
      | nil => rfl
      | cons c rest =>
        dsimp only
        rw [if_neg]
        intro hc
        exact hstar (by simp [hd, hc])
    unfold parseKeyQ
    rw [if_neg hne, hresp]
    rfl
  · intro s r hne hresp hlen
    unfold parseKeyQ
    rw [if_neg hne, hresp]
    exact List.getElem?_eq_none (by omega)

/-- Witness for `c10_parse_key_amended`: the bare command `"INFO"` (no
RESP framing) and the one-element RESP array both leave `parse_key`
without a defined key. -/
theorem c10_parse_key_amended_witness :
    parseKeyQ "INFO" = none ∧ parseKeyQ "*1\r\n$4\r\nINFO\r\n" = none :=
  ⟨c10_parse_key_amended.1 "INFO" (by decide) (by decide),
   c10_parse_key_amended.2.1 "*1\r\n$4\r\nINFO\r\n" ["INFO"] (by decide)
     (by decide) (by decide)⟩

/-- Modelled from the spec: `types.h` is not under `src/`.  The data model
lists a Worker as an "address (ip, port)", and `load_balancer.h` reads
exactly the fields `ip` (string) and `port` (int) of `ServerAdd`. -/
structure ServerAdd where
  ip : String
  port : Int
deriving Repr, DecidableEq

/-- `LoadBalancer::hashKey`:
`static_cast<int>(hash_fn(key) & 0x7FFFFFFF)` — keep the low 31 bits of the
(implementation-defined) `std::hash` value `h key`, which is a
non-negative `int`. -/
def lbHashKey (h : String → Nat) (key : String) : Int :=
  ((h key % 2 ^ 31 : Nat) : Int)

/-- `hash_ring_.insert(key)` on the `std::set<int>`: the set as a sorted,
duplicate-free list. -/
def ringInsert : List Int → Int → List Int
  | [], x => [x]
  | y :: ys, x =>
    if x < y then x :: y :: ys
    else if x = y then y :: ys
    else y :: ringInsert ys x

/-- `server_map_[key] = server_add` on the `unordered_map`. -/
def mapUpsert (m : List (Int × ServerAdd)) (key : Int) (sa : ServerAdd) :
    List (Int × ServerAdd) :=
  match m with
  | [] => [(key, sa)]
  | (k2, s2) :: rest =>
    if k2 = key then (k2, sa) :: rest else (k2, s2) :: mapUpsert rest key sa

/-- The constructor loop of `LoadBalancer`: for each worker, hash
`ip + std::to_string(port)`, insert into the ring, and remember the
address. -/
def lbBuild (h : String → Nat) (servers : List ServerAdd) :
    List Int × List (Int × ServerAdd) :=
  servers.foldl
    (fun acc sa =>
      let key := lbHashKey h (sa.ip ++ toString sa.port)
      (ringInsert acc.1 key, mapUpsert acc.2 key sa))
    ([], [])

/-- `hash_ring_.lower_bound(hash)` then the wrap
`if (it == hash_ring_.end()) it = hash_ring_.begin()`.  On an empty ring
the source would dereference `end()` (undefined behaviour), modelled as
`none`. -/
def ringChoose (ring : List Int) (hk : Int) : Option Int :=
  match ring.find? (fun r => decide (hk ≤ r)) with
  | some r => some r
  | none => ring.head?

/-- `server_map_[*it]` lookup (every ring element is a map key). -/
def mapLookup (m : List (Int × ServerAdd)) (key : Int) : Option ServerAdd :=
  match m with
  | [] => none
  | (k2, s2) :: rest => if k2 = key then some s2 else mapLookup rest key

/-- `LoadBalancer::getServer(key)`. -/
def lbGetServer (h : String → Nat) (ring : List Int)
    (m : List (Int × ServerAdd)) (key : String) : Option ServerAdd :=
  match ringChoose ring (lbHashKey h key) with
  | none => none
  | some r => mapLookup m r

theorem ringInsert_mem (l : List Int) (x y : Int) :
    y ∈ ringInsert l x ↔ y = x ∨ y ∈ l := by
  induction l with
  | nil => simp [ringInsert]
  | cons z zs ih =>
    unfold ringInsert
    by_cases h1 : x < z
    · rw [if_pos h1]
      simp only [List.mem_cons]
    · rw [if_neg h1]
      by_cases h2 : x = z
      · rw [if_pos h2]
        subst h2
        simp only [List.mem_cons]
        tauto
      · rw [if_neg h2]
        simp only [List.mem_cons, ih]
        tauto

theorem ringInsert_sorted (l : List Int) (x : Int)
    (hs : l.Pairwise (· < ·)) :
    (ringInsert l x).Pairwise (· < ·) := by
  induction l with
  | nil => simp [ringInsert]
  | cons z zs ih =>
    obtain ⟨hz, hzs⟩ := List.pairwise_cons.mp hs
    unfold ringInsert
    by_cases h1 : x < z
    · rw [if_pos h1]
      refine List.pairwise_cons.mpr ⟨?_, hs⟩
      intro y hy
      rcases List.mem_cons.mp hy with h3 | h3
      · omega
      · have := hz y h3; omega
    · by_cases h2 : x = z
      · rw [if_neg h1, if_pos h2]; exact hs
      · rw [if_neg h1, if_neg h2]
        refine List.pairwise_cons.mpr ⟨?_, ih hzs⟩
        intro y hy
        rcases (ringInsert_mem zs x y).mp hy with h3 | h3
        · omega
        · exact hz y h3

theorem ringInsert_ne_nil (l : List Int) (x : Int) :
    ringInsert l x ≠ [] := by
  cases l with
  | nil => simp [ringInsert]
  | cons z zs =>
    unfold ringInsert
    by_cases h1 : x < z
    · simp [if_pos h1]
    · by_cases h2 : x = z
      · simp [if_neg h1, if_pos h2]
      · simp [if_neg h1, if_neg h2]

theorem lbBuild_sorted (h : String → Nat) :
    ∀ (servers : List ServerAdd) (acc : List Int × List (Int × ServerAdd)),
      acc.1.Pairwise (· < ·) →
      (servers.foldl
        (fun acc sa =>
          let key := lbHashKey h (sa.ip ++ toString sa.port)
          (ringInsert acc.1 key, mapUpsert acc.2 key sa))
        acc).1.Pairwise (· < ·) := by
  intro servers
  induction servers with
  | nil => exact fun acc hacc => hacc
  | cons sa rest ih =>
    intro acc hacc
    exact ih _ (ringInsert_sorted _ _ hacc)

theorem lbBuild_ne_nil (h : String → Nat) :
    ∀ (servers : List ServerAdd) (acc : List Int × List (Int × ServerAdd)),
      servers ≠ [] ∨ acc.1 ≠ [] →
      (servers.foldl
        (fun acc sa =>
          let key := lbHashKey h (sa.ip ++ toString sa.port)
          (ringInsert acc.1 key, mapUpsert acc.2 key sa))
        acc).1 ≠ [] := by
  intro servers
  induction servers with
  | nil =>
    intro acc hacc
    rcases hacc with h1 | h1
    · exact absurd rfl h1
    · exact h1
  | cons sa rest ih =>
    intro acc _
    exact ih _ (Or.inr (ringInsert_ne_nil _ _))

theorem find?_ge_least (hk : Int) :
    ∀ (l : List Int), l.Pairwise (· < ·) →
      ∀ r, l.find? (fun r2 => decide (hk ≤ r2)) = some r →
        hk ≤ r ∧ r ∈ l ∧ ∀ y ∈ l, hk ≤ y → r ≤ y := by
  intro l
  induction l with
  | nil => intro _ r hr; cases hr
  | cons x xs ih =>
    intro hs r hr
    obtain ⟨hx, hxs⟩ := List.pairwise_cons.mp hs
    by_cases hkx : hk ≤ x
    · rw [List.find?_cons_of_pos _ (by simpa using hkx)] at hr
      cases hr
      refine ⟨hkx, List.mem_cons_self _ _, ?_⟩
      intro y hy _
      rcases List.mem_cons.mp hy with h1 | h1
      · omega
      · have := hx y h1; omega
    · rw [List.find?_cons_of_neg _ (by simpa using hkx)] at hr
      obtain ⟨h1, h2, h3⟩ := ih hxs r hr
      refine ⟨h1, List.mem_cons_of_mem _ h2, ?_⟩
      intro y hy hky
      rcases List.mem_cons.mp hy with h4 | h4
      · omega
      · exact h3 y h4 hky

theorem sorted_head_min (l : List Int) (hs : l.Pairwise (· < ·)) (r : Int)
    (hr : l.head? = some r) : r ∈ l ∧ ∀ y ∈ l, r ≤ y := by
  cases l with
  | nil => cases hr
  | cons a as =>
    cases hr
    refine ⟨List.mem_cons_self _ _, ?_⟩
    intro y hy
    rcases List.mem_cons.mp hy with h1 | h1
    · omega
    · have := (List.pairwise_cons.mp hs).1 y h1; omega

/-- C8: for every hash function, every non-empty worker list and every
key, `LoadBalancer::getServer` selects, via `lower_bound` on the ring
built by the constructor, exactly the worker hash described by the spec:
the chosen ring value `r` exists, lies on the ring, and is the least ring
value `≥ hash(key) & 0x7FFFFFFF` when one exists, else the ring's
minimum (the wrap to `begin()`).  The selection is a pure function of the
key bytes: `ringChoose`/`lbGetServer` are functions of `(ring, key)`
alone, so repeated requests with the same key choose the same worker. -/
theorem c8_ring_selection (h : String → Nat) (servers : List ServerAdd)
    (hne : servers ≠ []) (key : String) :
    ∃ r,
      ringChoose (lbBuild h servers).1 (lbHashKey h key) = some r ∧
      r ∈ (lbBuild h servers).1 ∧
      ((∃ y ∈ (lbBuild h servers).1, lbHashKey h key ≤ y) →
        lbHashKey h key ≤ r ∧
          ∀ y ∈ (lbBuild h servers).1, lbHashKey h key ≤ y → r ≤ y) ∧
      ((∀ y ∈ (lbBuild h servers).1, y < lbHashKey h key) →
        ∀ y ∈ (lbBuild h servers).1, r ≤ y) := by
  have hsort : (lbBuild h servers).1.Pairwise (· < ·) :=
    lbBuild_sorted h servers ([], []) List.Pairwise.nil
  have hnn : (lbBuild h servers).1 ≠ [] :=
    lbBuild_ne_nil h servers ([], []) (Or.inl hne)
  cases hfind : (lbBuild h servers).1.find?
      (fun r2 => decide (lbHashKey h key ≤ r2)) with
  | some r =>
    obtain ⟨h1, h2, h3⟩ := find?_ge_least _ _ hsort r hfind
    refine ⟨r, ?_, h2, fun _ => ⟨h1, h3⟩, ?_⟩
    · unfold ringChoose
      rw [hfind]
    · intro hall
      have := hall r h2
      omega
  | none =>
    obtain ⟨a, hhead⟩ : ∃ a, (lbBuild h servers).1.head? = some a := by
      cases hl : (lbBuild h servers).1 with
      | nil => exact absurd hl hnn
      | cons a as => exact ⟨a, rfl⟩
    obtain ⟨hmem, hmin⟩ := sorted_head_min _ hsort a hhead
    refine ⟨a, ?_, hmem, ?_, fun _ => hmin⟩
    · unfold ringChoose
      rw [hfind]
      exact hhead
    · intro hex
      obtain ⟨y, hy, hky⟩ := hex
      have := List.find?_eq_none.mp hfind y hy
      simp at this
      omega

/-- Witness for `c8_ring_selection`: three workers on 127.0.0.1 ports
5000–5002 (as in spec §8 scenario (f)) with a concrete stand-in hash. -/
theorem c8_ring_selection_witness :
    ∃ r,
      ringChoose
          (lbBuild (fun s => s.length)
            [⟨"127.0.0.1", 5000⟩, ⟨"127.0.0.1", 5001⟩,
              ⟨"127.0.0.1", 5002⟩]).1
          (lbHashKey (fun s => s.length) "foo") = some r ∧
      r ∈ (lbBuild (fun s => s.length)
            [⟨"127.0.0.1", 5000⟩, ⟨"127.0.0.1", 5001⟩,
              ⟨"127.0.0.1", 5002⟩]).1 ∧
      ((∃ y ∈ (lbBuild (fun s => s.length)
            [⟨"127.0.0.1", 5000⟩, ⟨"127.0.0.1", 5001⟩,
              ⟨"127.0.0.1", 5002⟩]).1,
          lbHashKey (fun s => s.length) "foo" ≤ y) →
        lbHashKey (fun s => s.length) "foo" ≤ r ∧
          ∀ y ∈ (lbBuild (fun s => s.length)
            [⟨"127.0.0.1", 5000⟩, ⟨"127.0.0.1", 5001⟩,
              ⟨"127.0.0.1", 5002⟩]).1,
            lbHashKey (fun s => s.length) "foo" ≤ y → r ≤ y) ∧
      ((∀ y ∈ (lbBuild (fun s => s.length)
            [⟨"127.0.0.1", 5000⟩, ⟨"127.0.0.1", 5001⟩,
              ⟨"127.0.0.1", 5002⟩]).1,
          y < lbHashKey (fun s => s.length) "foo") →
        ∀ y ∈ (lbBuild (fun s => s.length)
            [⟨"127.0.0.1", 5000⟩, ⟨"127.0.0.1", 5001⟩,
              ⟨"127.0.0.1", 5002⟩]).1, r ≤ y) :=
  c8_ring_selection (fun s => s.length)
    [⟨"127.0.0.1", 5000⟩, ⟨"127.0.0.1", 5001⟩, ⟨"127.0.0.1", 5002⟩]
    (by decide) "foo"
